import Mathlib

/-!
Shallow embedding of the `pagination_project` repository: the fQuery DOM
micro-library (`src/unnamed/part_000`, i.e. `fquery.js`) and the pagination
controller (`src/src/js/pagination.js`).

DOM elements are modelled as a pure tree value carrying the fields the
program reads and writes: the inline style (`opacity`, `display`), the
`$$$display` expando property that `hide`/`show` use to stash the computed
display value, the stylesheet/default display (an input to the browser's
`getComputedStyle`), the string-valued element properties the code touches
(`innerHTML`, `className`, `id`, `value`) and the `children` collection.
Mutation is modelled by returning updated values; DOM nodes in a collection
are distinct references, so a list position identifies a node.
-/

namespace Fquery

/-- The inline `style` object of an element, restricted to the two CSS
properties this program reads or writes (`opacity` and `display`). -/
structure Style where
  opacity : String
  display : String

/-- A DOM element as seen by this program: inline style, the `$$$display`
expando (present iff the property is set on the node), the display value the
stylesheet would give the element (what `getComputedStyle` reports when the
inline `display` is empty), the string properties the code uses, and the
child elements. -/
inductive Element where
  | mk (style : Style) (storedDisplay : Option String) (defaultDisplay : String)
      (innerHTML : String) (className : String) (idAttr : String) (value : String)
      (children : List Element)

def Element.style : Element → Style
  | .mk s _ _ _ _ _ _ _ => s

def Element.storedDisplay : Element → Option String
  | .mk _ sd _ _ _ _ _ _ => sd

def Element.defaultDisplay : Element → String
  | .mk _ _ dd _ _ _ _ _ => dd

def Element.innerHTML : Element → String
  | .mk _ _ _ ih _ _ _ _ => ih

def Element.className : Element → String
  | .mk _ _ _ _ cn _ _ _ => cn

def Element.idAttr : Element → String
  | .mk _ _ _ _ _ i _ _ => i

def Element.value : Element → String
  | .mk _ _ _ _ _ _ v _ => v

def Element.children : Element → List Element
  | .mk _ _ _ _ _ _ _ cs => cs

def Element.setOpacity : Element → String → Element
  | .mk s sd dd ih cn i v cs, o => .mk ⟨o, s.display⟩ sd dd ih cn i v cs

def Element.setDisplay : Element → String → Element
  | .mk s sd dd ih cn i v cs, d => .mk ⟨s.opacity, d⟩ sd dd ih cn i v cs

def Element.setStored : Element → Option String → Element
  | .mk s _ dd ih cn i v cs, sd => .mk s sd dd ih cn i v cs

def Element.setInnerHTML : Element → String → Element
  | .mk s sd dd _ cn i v cs, ih => .mk s sd dd ih cn i v cs

def Element.setClassName : Element → String → Element
  | .mk s sd dd ih _ i v cs, cn => .mk s sd dd ih cn i v cs

def Element.setIdAttr : Element → String → Element
  | .mk s sd dd ih cn _ v cs, i => .mk s sd dd ih cn i v cs

def Element.setValue : Element → String → Element
  | .mk s sd dd ih cn i _ cs, v => .mk s sd dd ih cn i v cs

def Element.withStyle : Element → Style → Element
  | .mk _ sd dd ih cn i v cs, s => .mk s sd dd ih cn i v cs

def Element.withChildren : Element → List Element → Element
  | .mk s sd dd ih cn i v _, cs => .mk s sd dd ih cn i v cs

/-- Model of the browser's `getComputedStyle(element).display`: the inline
`display` when one is set, otherwise the display the stylesheet gives the
element. -/
def getComputedDisplay (e : Element) : String :=
  if e.style.display ≠ "" then e.style.display else e.defaultDisplay

/-- `hide` from fquery.js: sets `style.opacity` to `"0"`, stores the computed
display value in the `$$$display` expando, then sets `style.display` to
`"none"`, in that order. -/
def hide (e : Element) : Element :=
  let e1 := e.setOpacity "0"
  let e2 := e1.setStored (some (getComputedDisplay e1))
  e2.setDisplay "none"

/-- `show` from fquery.js (named `showEl` here because `show` is a Lean
keyword): sets `style.opacity` to `"1"`, sets `style.display` to the stored
`$$$display` value when that value is truthy (a non-empty string) and to `""`
otherwise, then deletes the `$$$display` expando. -/
def showEl (e : Element) : Element :=
  let e1 := e.setOpacity "1"
  let e2 := e1.setDisplay (match e1.storedDisplay with
    | some s => if s = "" then "" else s
    | none => "")
  e2.setStored none

/-! ## Property-path resolution

JavaScript string primitives (`split('.')`, `replace(/>/g, '.children.')`,
the `/^\./` and `/>/` regex tests) are modelled by executable recursions over
the string's character list. -/

/-- Model of `value.split('.')` on a character list: splits at every `'.'`,
keeping empty chunks (as JavaScript's `split` does). -/
def splitDot : List Char → List (List Char)
  | [] => [[]]
  | c :: cs =>
    if c = '.' then [] :: splitDot cs
    else ((c :: (splitDot cs).headI) :: (splitDot cs).tail)

/-- Model of `value.replace(/>/gi, '.children.')`: every `'>'` character is
replaced by the characters of `".children."`. -/
def replaceGt : List Char → List Char
  | [] => []
  | c :: cs => (if c = '>' then ".children.".toList else [c]) ++ replaceGt cs

/-- The result object of an alias predicate: `{"test": ..., "alias": ...}`. -/
structure AliasResult where
  test : Bool
  aliasTo : String

/-- `styleAlias` from fquery.js: tests `/^\./` and offers `"style" + value`
as the alias. -/
def styleAlias (value : String) : AliasResult :=
  { test := decide (value.toList.headI = '.') && decide (value.toList ≠ []),
    aliasTo := "style" ++ value }

/-- `childAlias` from fquery.js: tests `/>/` and offers the value with every
`'>'` replaced by `".children."` as the alias. -/
def childAlias (value : String) : AliasResult :=
  { test := value.toList.contains '>',
    aliasTo := String.mk (replaceGt value.toList) }

/-- `selectorValidator` from fquery.js: folds the alias predicates over the
property string, starting from `{"test": false, "alias": ""}`; each
predicate whose test passes replaces the accumulated result, so a later
passing predicate wins over an earlier one. -/
def selectorValidator (tests : List (String → AliasResult)) (value : String) :
    AliasResult :=
  tests.foldl (fun first next =>
    let current := next value
    if current.test then current else first)
    { test := false, aliasTo := "" }

/-- `prop` from fquery.js: splits the property string at `'.'` and drops the
empty keys. -/
def prop (property : String) : List String :=
  ((splitDot property.toList).map (fun l => String.mk l)).filter
    (fun key => key ≠ "")

/-- `propWrapper` from fquery.js: runs the alias test and feeds either the
alias or the original property to the engine. -/
def propWrapper (engine : String → List String)
    (tests : List (String → AliasResult)) (property : String) : List String :=
  let aliasR := selectorValidator tests property
  if aliasR.test then engine aliasR.aliasTo else engine property

/-- `on` from fquery.js, `var on = propWrapper(prop, styleAlias, childAlias)`
(named `onProp` here because `on` is a reserved notation token in Lean):
resolves a property selector to the key sequence to traverse. -/
def onProp : String → List String :=
  propWrapper prop [styleAlias, childAlias]

/-! ## Property traversal: `getValue` and `setValue`

The values reachable from an element by the key paths this program uses are
modelled by `JSValue`: `undefined`, booleans, strings, elements, the inline
style object, and the `children` collection.  Indexing `undefined` throws a
`TypeError` in JavaScript; that is the `Except` error.  Keys that name
nothing in the model yield `undefined`, as property access on an object
does. -/

inductive JSValue where
  | undefined
  | bool (b : Bool)
  | str (s : String)
  | elem (e : Element)
  | styleObj (st : Style)
  | childList (cs : List Element)

/-- A single property access `first[second]`.  Accessing a property of
`undefined` is a `TypeError` (the `.error` case); every other receiver
yields the property value, or `undefined` when the key names nothing.  The
element and style objects expose exactly the properties this program ever
reads; a `children` collection is indexed by a decimal key. -/
def jsIndex : JSValue → String → Except Unit JSValue
  | .undefined, _ => .error ()
  | .bool _, _ => .ok .undefined
  | .str _, _ => .ok .undefined
  | .elem e, k =>
    if k = "style" then .ok (.styleObj e.style)
    else if k = "children" then .ok (.childList e.children)
    else if k = "innerHTML" then .ok (.str e.innerHTML)
    else if k = "className" then .ok (.str e.className)
    else if k = "id" then .ok (.str e.idAttr)
    else if k = "value" then .ok (.str e.value)
    else if k = "$$$display" then
      .ok (match e.storedDisplay with | some s => .str s | none => .undefined)
    else .ok .undefined
  | .styleObj st, k =>
    if k = "opacity" then .ok (.str st.opacity)
    else if k = "display" then .ok (.str st.display)
    else .ok .undefined
  | .childList cs, k =>
    match k.toList.foldl (fun acc c =>
      match acc with
      | none => none
      | some n => if c.isDigit then some (n * 10 + (c.toNat - 48)) else none)
      (some 0) with
    | some n => match cs[n]? with
      | some e => .ok (.elem e)
      | none => .ok .undefined
    | none => .ok .undefined

/-- `getValue` from fquery.js: the returned closure reduces the key array
over the selected element, `array.reduce((first, second) => first[second],
element)`, propagating the `TypeError` raised when a step indexes
`undefined`. -/
def getValue (elementSelected : JSValue) (array : List String) :
    Except Unit JSValue :=
  array.foldlM jsIndex elementSelected

/-- `isString` from fquery.js: `typeof value === 'string'`. -/
def isString : JSValue → Bool
  | .str _ => true
  | _ => false

/-- `validator` from fquery.js: conjoins a list of predicates. -/
def validator (bools : List (JSValue → Bool)) (value : JSValue) : Bool :=
  bools.foldl (fun first next => first && next value) true

/-- Writes the string `value` at key `k` of `v`.  Used only at keys whose
current value is a string, mirroring the guarded assignment
`first[second] = value` in `setValue`. -/
def jsWrite (v : JSValue) (k : String) (value : String) : JSValue :=
  match v with
  | .elem e =>
    if k = "innerHTML" then .elem (e.setInnerHTML value)
    else if k = "className" then .elem (e.setClassName value)
    else if k = "id" then .elem (e.setIdAttr value)
    else if k = "value" then .elem (e.setValue value)
    else if k = "$$$display" then .elem (e.setStored (some value))
    else .elem e
  | .styleObj st =>
    if k = "opacity" then .styleObj ⟨value, st.display⟩
    else if k = "display" then .styleObj ⟨st.opacity, value⟩
    else .styleObj st
  | other => other

/-- Puts an updated child object back at key `k` of `v`.  In JavaScript the
child is mutated in place; in this pure model the recursion returns the
updated child and this function reattaches it. -/
def jsPutObj (v : JSValue) (k : String) (child : JSValue) : JSValue :=
  match v, child with
  | .elem e, .styleObj st => if k = "style" then .elem (e.withStyle st) else .elem e
  | .elem e, .childList cs => if k = "children" then .elem (e.withChildren cs) else .elem e
  | .childList cs, .elem e' =>
    match k.toList.foldl (fun acc c =>
      match acc with
      | none => none
      | some n => if c.isDigit then some (n * 10 + (c.toNat - 48)) else none)
      (some 0) with
    | some n => .childList (cs.set n e')
    | none => .childList cs
  | other, _ => other

/-- `setValue` from fquery.js: the returned closure reduces the key array
over the selected element,
`(keyTest(first[second])) ? first[second] = value : first[second]`,
writing at a step exactly when that step's current value is a string (the
assignment makes the accumulator the assigned string).  The result pairs the
updated subject (writes performed before a `TypeError` persist, as they do
in JavaScript) with the reduce's outcome. -/
def setValueGo (value : String) : JSValue → List String →
    JSValue × Except Unit JSValue
  | v, [] => (v, .ok v)
  | v, k :: ks =>
    match jsIndex v k with
    | .error _ => (v, .error ())
    | .ok i =>
      if validator [isString] i then
        let r := (setValueGo value (.str value) ks).2
        (jsWrite v k value, r)
      else
        let (i', r) := setValueGo value i ks
        (jsPutObj v k i', r)

/-! ## Collection operations: `then`, `find`, `match`, `set`

JavaScript array callbacks run left to right and a thrown `TypeError`
aborts the whole operation; the combinators below model that with the
`Except` error.  An object literal of key/value pairs (what `objToArr`
turns into an array of two-element arrays) is modelled directly as the
insertion-ordered pair list. -/

def someME : List α → (α → Except Unit Bool) → Except Unit Bool
  | [], _ => .ok false
  | x :: xs, f =>
    match f x with
    | .error e => .error e
    | .ok true => .ok true
    | .ok false => someME xs f

def everyME : List α → (α → Except Unit Bool) → Except Unit Bool
  | [], _ => .ok true
  | x :: xs, f =>
    match f x with
    | .error e => .error e
    | .ok false => .ok false
    | .ok true => everyME xs f

def mapME : List α → (α → Except Unit β) → Except Unit (List β)
  | [], _ => .ok []
  | x :: xs, f =>
    match f x with
    | .error e => .error e
    | .ok y => (mapME xs f).map (fun ys => y :: ys)

def filterME : List α → (α → Except Unit Bool) → Except Unit (List α)
  | [], _ => .ok []
  | x :: xs, f =>
    match f x with
    | .error e => .error e
    | .ok b => (filterME xs f).map (fun ys => if b then x :: ys else ys)

/-- Model of JavaScript's `String.prototype.includes`: substring test. -/
def jsIncludes (s sub : String) : Bool :=
  decide (sub.toList <:+: s.toList)

/-- JavaScript truthiness of the values in this model: `undefined`, `false`
and the empty string are falsy; every other value is truthy. -/
def jsTruthy : JSValue → Bool
  | .undefined => false
  | .bool b => b
  | .str s => s ≠ ""
  | _ => true

/-- Model of JavaScript's string-to-number coercion, restricted to the
decimal integers this program produces as page-link labels: optional
whitespace around an optional sign and decimal digits; `none` is `NaN`.
The empty (or all-whitespace) string coerces to `0`. -/
def charsToNum (l : List Char) : Option Int :=
  let isWs := fun c : Char => c == ' ' || c == '\t' || c == '\n' || c == '\r'
  let digits : List Char → Option Nat := fun ds =>
    match ds with
    | [] => none
    | _ => ds.foldl (fun acc c =>
        match acc with
        | none => none
        | some n => if c.isDigit then some (n * 10 + (c.toNat - 48)) else none)
        (some 0)
  match (l.dropWhile isWs).reverse.dropWhile isWs |>.reverse with
  | [] => some 0
  | '-' :: ds => (digits ds).map (fun n => -(n : Int))
  | '+' :: ds => (digits ds).map (fun n => (n : Int))
  | ds => (digits ds).map (fun n => (n : Int))

def jsStrToNum (s : String) : Option Int :=
  charsToNum s.toList

/-- Loose equality `v == s` between a traversal result and a property
string: a string compares by value, a boolean compares through numeric
coercion, `undefined` never equals a string.  Objects coerce through their
`toString` metadata (`"[object ...]"`), which never equals the property
values this program compares, so they compare unequal here. -/
def jsLooseEqStr (v : JSValue) (s : String) : Bool :=
  match v with
  | .str t => t = s
  | .bool b =>
    match jsStrToNum s with
    | some n => n == (if b then (1 : Int) else 0)
    | none => false
  | _ => false

/-- The predicate built by `matchIt` from fquery.js, the function named `m`:
every listed property's resolved value compares loosely equal to the paired
value. -/
def matchItPred (propArray : List (String × String)) (element : JSValue) :
    Except Unit Bool :=
  everyME propArray (fun property =>
    match getValue element (onProp property.1) with
    | .error _ => .error ()
    | .ok v => .ok (jsLooseEqStr v property.2))

/-- The predicate built by `findIt` from fquery.js, the function named `f`:
some listed property's resolved value contains the paired value as a
substring.  `.includes` exists only on strings; calling it on any other
resolved value is a `TypeError`. -/
def findItPred (propArray : List (String × String)) (element : JSValue) :
    Except Unit Bool :=
  someME propArray (fun property =>
    match getValue element (onProp property.1) with
    | .error _ => .error ()
    | .ok (.str s) => .ok (jsIncludes s property.2)
    | .ok _ => .error ())

/-- The transform built by `setIt` from fquery.js, the function named `s`:
sets each listed property of the element to the paired value, in order,
and returns the element.  Writes performed before a thrown `TypeError`
persist. -/
def setItGo (propArray : List (String × String)) : JSValue →
    JSValue × Except Unit Unit :=
  match propArray with
  | [] => fun element => (element, .ok ())
  | property :: rest => fun element =>
    let (element', r) := setValueGo property.2 element (onProp property.1)
    match r with
    | .error _ => (element', .error ())
    | .ok _ => setItGo rest element'

/-- A named callback as dispatched by `then` from fquery.js: the function's
`name` and its action on an element of the collection. -/
structure NamedFn where
  name : String
  run : JSValue → Except Unit JSValue

/-- `find(object)` as passed to `then`: the predicate closure returned by
`findIt`, whose identifier is `f`. -/
def findFn (propArray : List (String × String)) : NamedFn :=
  { name := "f", run := fun element => (findItPred propArray element).map .bool }

/-- `match(object)` as passed to `then`: the predicate closure returned by
`matchIt`, whose identifier is `m`. -/
def matchFn (propArray : List (String × String)) : NamedFn :=
  { name := "m", run := fun element => (matchItPred propArray element).map .bool }

/-- `set(object)` as passed to `then`: the transform closure returned by
`setIt`, whose identifier is `s`. -/
def setFn (propArray : List (String × String)) : NamedFn :=
  { name := "s",
    run := fun element =>
      let (element', r) := setItGo propArray element
      match r with
      | .error _ => .error ()
      | .ok _ => .ok element' }

/-- The named-function branch of `then` from fquery.js: a function whose
identifier is the single reserved letter `m` or `f` is dispatched as
`filter` (on the truthiness of its result), every other non-empty
identifier as `map`.  An anonymous function takes the underscore-library
branch of `then`, which awaits further arguments and is outside this
model. -/
def thenFn (elementArray : List JSValue) (action : NamedFn) :
    Except Unit (List JSValue) :=
  if action.name ≠ "" then
    if action.name = "m" || action.name = "f" then
      filterME elementArray (fun element => (action.run element).map jsTruthy)
    else
      mapME elementArray action.run
  else .error ()

end Fquery

namespace Pagination

open Fquery

/-- JavaScript's `array.slice(first, last)` for the non-negative bounds this
program computes. -/
def jsSlice (l : List α) (first last : Nat) : List α :=
  (l.drop first).take (last - first)

/-- The filter predicate `find({'>0>1.innerHTML': query})` applies to one
student item in `makePage`. -/
def studentPred (query : String) (e : Element) : Except Unit Bool :=
  findItPred [(">0>1.innerHTML", query)] (.elem e)

/-- The effect of `then(array)('slice')(first, last)(then)(show)()` on the
full student list: the matched array aliases the student nodes, so the
`show` mapped over its slice mutates exactly the matched students whose
match rank (position among the matched, counted from 0) lies in
`[first, last)`.  `r` is the rank of the first matched student of the
remaining list. -/
def applySlice (first last : Nat) : Nat → List (Bool × Element) → List Element
  | _, [] => []
  | r, (b, e) :: rest =>
    if b then
      (if first ≤ r ∧ r < last then showEl e else e) :: applySlice first last (r + 1) rest
    else
      e :: applySlice first last r rest

/-- `makePage` from pagination.js, acting on the `.student-item` nodes: maps
`show` then `hide` over all of them, filters them with
`find({'>0>1.innerHTML': query})`, and shows the slice
`[(page-1)*10, page*10)` of the matched array.  Returns the resulting state
of every student node, in document order; a `TypeError` thrown while the
filter resolves a name path aborts the render. -/
def makePage (students : List Element) (query : String) (page : Nat) :
    Except Unit (List Element) :=
  let first := (page - 1) * 10
  let last := page * 10
  let afterHide := students.map (fun e => hide (showEl e))
  match mapME afterHide (studentPred query) with
  | .error e => .error e
  | .ok flags => .ok (applySlice first last 0 (flags.zip afterHide))

/-- A student node is visibly rendered when its inline display is not
`"none"`. -/
def isVisible (e : Element) : Bool :=
  e.style.display ≠ "none"

/-- The positions (counting from `i`) of the `true` entries of a flag
list: which students are matched, or which are visible. -/
def boolFilterIdx (i : Nat) : List Bool → List Nat
  | [] => []
  | b :: bs =>
    if b then i :: boolFilterIdx (i + 1) bs else boolFilterIdx (i + 1) bs

/-- The `active` argument of `createPageLinks`: the page reaches it either
as the number `1` (initial render and search) or as the string read from a
clicked link's text content. -/
inductive ActiveArg where
  | num (n : Nat)
  | str (s : String)

/-- JavaScript's loose equality `active == i + 1` between the active-page
argument and a candidate page number: a string operand coerces to a
number (`NaN` compares unequal). -/
def looseEqNat (active : ActiveArg) (n : Nat) : Bool :=
  match active with
  | .num m => m == n
  | .str s =>
    match jsStrToNum s with
    | some m => m == (n : Int)
    | none => false

/-- The anchor rendered inside one page-link `li`:
`'<a class="' + className + '" href="#">' + (i + 1) + '</a>'`. -/
structure PageLink where
  anchorClass : String
  label : String

/-- `createPageLinks` from pagination.js, abstracted over the matched
array's length: renders `Math.ceil(array.length / 10)` links numbered from
1, giving the class `'active'` to a link whose number compares loosely
equal to the `active` argument and `''` to every other. -/
def createPageLinks (matchCount : Nat) (active : ActiveArg) : List PageLink :=
  let totalPages := (matchCount + 9) / 10
  (List.range totalPages).map (fun i =>
    { anchorClass := if looseEqNat active (i + 1) then "active" else "",
      label := toString (i + 1) })

end Pagination

open Fquery Pagination

/-! ## Concrete elements used by witnesses and counterexamples -/

/-- A span-like element carrying a text in its `innerHTML`. -/
def spanEl (text : String) : Element :=
  .mk ⟨"", ""⟩ none "inline" text "" "" "" []

/-- A student item whose name field (child path `>0>1.innerHTML`) is `"Jo"`. -/
def studentJo : Element :=
  .mk ⟨"", ""⟩ none "list-item" "" "student-item" "" ""
    [.mk ⟨"", ""⟩ none "block" "" "" "" "" [spanEl "avatar", spanEl "Jo"]]

/-- A student item whose name field (child path `>0>1.innerHTML`) is `"Ned"`. -/
def studentNed : Element :=
  .mk ⟨"", ""⟩ none "list-item" "" "student-item" "" ""
    [.mk ⟨"", ""⟩ none "block" "" "" "" "" [spanEl "avatar", spanEl "Ned"]]

/-- A shown element with a non-default opacity: inline opacity `"0.5"`,
inline display `"inline"`, stylesheet display `"block"`. -/
def elemHalf : Element := .mk ⟨"0.5", "inline"⟩ none "block" "" "" "" "" []

/-- A plainly shown element: inline opacity `"1"`, inline display
`"block"`. -/
def elemShown : Element := .mk ⟨"1", "block"⟩ none "block" "" "" "" "" []

/-- An element with empty inline style and a few string properties. -/
def elemPlain : Element := .mk ⟨"", ""⟩ none "block" "inner" "cls" "idv" "val" []

/-- A named callback whose identifier is neither `'m'` nor `'f'` and which
returns its element unchanged. -/
def idNamedFn : NamedFn := { name := "g", run := fun element => .ok element }

/-- Holds when no step of a `setValue` walk down `path` from `v` finds a
string-valued step (so the guarded assignment never fires): each step either
throws, or continues through a non-string value. -/
def noStringStep : JSValue → List String → Bool
  | _, [] => true
  | v, k :: ks =>
    match jsIndex v k with
    | .error _ => true
    | .ok (.str _) => false
    | .ok i => noStringStep i ks

/-- The visibility pattern the slice step of `makePage` produces: a matched
student (flag `true`) becomes visible exactly when its match rank lies in
`[first, last)`; an unmatched student stays hidden. -/
def sliceFlags (first last : Nat) : Nat → List Bool → List Bool
  | _, [] => []
  | r, true :: bs => decide (first ≤ r ∧ r < last) :: sliceFlags first last (r + 1) bs
  | r, false :: bs => false :: sliceFlags first last r bs

/-! ## Computation lemmas for `hide` and `show` -/

theorem hide_mk (o d : String) (sd : Option String) (dd ih cn i v : String)
    (cs : List Element) :
    hide (.mk ⟨o, d⟩ sd dd ih cn i v cs)
      = .mk ⟨"0", "none"⟩ (some (if d ≠ "" then d else dd)) dd ih cn i v cs := by
  simp [hide, getComputedDisplay, Element.setOpacity, Element.setStored,
    Element.setDisplay, Element.style, Element.defaultDisplay]

theorem showEl_mk_none (o d : String) (dd ih cn i v : String) (cs : List Element) :
    showEl (.mk ⟨o, d⟩ none dd ih cn i v cs) = .mk ⟨"1", ""⟩ none dd ih cn i v cs := by
  simp [showEl, Element.setOpacity, Element.setStored, Element.setDisplay,
    Element.storedDisplay]

theorem showEl_mk_some (o d s : String) (dd ih cn i v : String) (cs : List Element) :
    showEl (.mk ⟨o, d⟩ (some s) dd ih cn i v cs)
      = .mk ⟨"1", if s = "" then "" else s⟩ none dd ih cn i v cs := by
  simp [showEl, Element.setOpacity, Element.setStored, Element.setDisplay,
    Element.storedDisplay]

/-- C5: `hide` stores the element's pre-hide computed display value on the
element, sets opacity to `"0"`, and sets display to `"none"`; `show` sets
opacity to `"1"`, sets display to the stored value if one is present and to
the default empty string otherwise, and clears the stored value. -/
theorem c5_hide_show_contract (e : Element) :
    (hide e).style.opacity = "0" ∧
    (hide e).storedDisplay = some (getComputedDisplay e) ∧
    (hide e).style.display = "none" ∧
    (showEl e).style.opacity = "1" ∧
    (showEl e).style.display = e.storedDisplay.getD "" ∧
    (showEl e).storedDisplay = none := by
  obtain ⟨⟨o, d⟩, sd, dd, ih, cn, i, v, cs⟩ := e
  cases sd with
  | none =>
    simp [hide_mk, showEl_mk_none, getComputedDisplay, Element.style,
      Element.storedDisplay, Element.defaultDisplay]
  | some s =>
    simp [hide_mk, showEl_mk_some, getComputedDisplay, Element.style,
      Element.storedDisplay, Element.defaultDisplay]
    intro hs
    exact hs.symm

/-- C4 fails as stated: on an element whose inline opacity is `"0.5"` and
inline display is `"inline"`, `show(hide(x))` leaves opacity `"1"`, and
`hide(show(x))` leaves display `"none"`; neither composition restores the
original values. -/
theorem c4_counterexample :
    ¬ ((showEl (hide elemHalf)).style.opacity = elemHalf.style.opacity ∧
       (hide (showEl elemHalf)).style.display = elemHalf.style.display) := by
  decide

/-- C4 amended: `show(hide(x))` restores the opacity and display of an
element in the shown state (opacity `"1"`, non-empty inline display), and
`hide(show(x))` restores the opacity and display of an element in the
hidden state (opacity `"0"`, display `"none"`); in general `show` forces
opacity `"1"` and `hide` forces opacity `"0"` and display `"none"`, so
arbitrary opacity/display values are not restored. -/
theorem c4_roundtrip (e : Element) :
    (e.style.opacity = "1" → e.style.display ≠ "" →
      (showEl (hide e)).style.opacity = e.style.opacity ∧
      (showEl (hide e)).style.display = e.style.display) ∧
    (e.style.opacity = "0" → e.style.display = "none" →
      (hide (showEl e)).style.opacity = e.style.opacity ∧
      (hide (showEl e)).style.display = e.style.display) := by
  obtain ⟨⟨o, d⟩, sd, dd, ih, cn, i, v, cs⟩ := e
  constructor
  · intro ho hd
    simp only [Element.style] at ho hd ⊢
    subst ho
    rw [hide_mk]
    simp [hd, showEl_mk_some, Element.style]
  · intro ho hd
    simp only [Element.style] at ho hd ⊢
    subst ho hd
    cases sd with
    | none => rw [showEl_mk_none, hide_mk]; simp [Element.style]
    | some s => rw [showEl_mk_some, hide_mk]; simp [Element.style]

theorem c4_roundtrip_witness :
    (showEl (hide elemShown)).style.opacity = elemShown.style.opacity ∧
    (showEl (hide elemShown)).style.display = elemShown.style.display :=
  (c4_roundtrip elemShown).1 (by decide) (by decide)

/-- C10: `hide` is not idempotent with respect to the stored display value:
when the computed display before the first `hide` is not `"none"`, a second
`hide` overwrites the stored value with the now-computed `"none"`, so a
following `show` sets display to `"none"` and the element stays hidden. -/
theorem c10_hide_not_idempotent (e : Element) (_h : getComputedDisplay e ≠ "none") :
    (hide (hide e)).storedDisplay = some "none" ∧
    (showEl (hide (hide e))).style.display = "none" := by
  obtain ⟨⟨o, d⟩, sd, dd, ih, cn, i, v, cs⟩ := e
  rw [hide_mk]
  rw [hide_mk]
  simp [showEl_mk_some, Element.storedDisplay, Element.style]

theorem c10_witness :
    (hide (hide elemShown)).storedDisplay = some "none" ∧
    (showEl (hide (hide elemShown))).style.display = "none" :=
  c10_hide_not_idempotent elemShown (by decide)

/-! ## Page links: count, labels and the active marker -/

/-- C2: `createPageLinks` renders exactly `ceil(matchCount / 10)` page
links, labeled `1` through `ceil(matchCount / 10)`; for `matchCount = 0` the
page count is `0` and no links are rendered. -/
theorem c2_page_count (matchCount : Nat) (active : ActiveArg) :
    (createPageLinks matchCount active).length = (matchCount + 9) / 10 ∧
    (createPageLinks matchCount active).map PageLink.label
      = (List.range ((matchCount + 9) / 10)).map (fun i => toString (i + 1)) ∧
    createPageLinks 0 active = [] := by
  refine ⟨?_, ?_, ?_⟩ <;> simp [createPageLinks]

theorem filter_length_le_one_of_unique {l : List α} {p : α → Bool}
    (hnd : l.Nodup) (huniq : ∀ x ∈ l, ∀ y ∈ l, p x → p y → x = y) :
    (l.filter p).length ≤ 1 := by
  induction l with
  | nil => simp
  | cons a t ih =>
    rw [List.nodup_cons] at hnd
    by_cases hpa : p a
    · have ht : t.filter p = [] := by
        rw [List.eq_nil_iff_forall_not_mem]
        intro x hx
        rw [List.mem_filter] at hx
        have := huniq x (List.mem_cons_of_mem a hx.1) a (List.mem_cons_self a t)
          hx.2 hpa
        exact hnd.1 (this ▸ hx.1)
      simp [List.filter_cons, hpa, ht]
    · rw [List.filter_cons_of_neg (by simpa using hpa)]
      exact ih hnd.2 (fun x hx y hy => huniq x (List.mem_cons_of_mem a hx) y
        (List.mem_cons_of_mem a hy))

theorem range_filter_eq_single {N k : Nat} (hk : k < N) :
    (List.range N).filter (fun i => i == k) = [k] := by
  induction N with
  | zero => omega
  | succ n ih =>
    rw [List.range_succ, List.filter_append]
    by_cases hkn : k < n
    · rw [ih hkn]
      have : ¬ (n == k) = true := by simp; omega
      simp [this]
    · have hk' : k = n := by omega
      subst hk'
      have : (List.range k).filter (fun i => i == k) = [] := by
        rw [List.eq_nil_iff_forall_not_mem]
        intro x hx
        rw [List.mem_filter, List.mem_range] at hx
        simp at hx
        omega
      simp [this]

theorem looseEqNat_inj (a : ActiveArg) {n m : Nat}
    (hn : looseEqNat a n = true) (hm : looseEqNat a m = true) : n = m := by
  cases a with
  | num k =>
    simp [looseEqNat] at hn hm
    omega
  | str s =>
    simp only [looseEqNat] at hn hm
    cases h : jsStrToNum s with
    | none => rw [h] at hn; exact absurd hn (by simp)
    | some k =>
      rw [h] at hn hm
      simp at hn hm
      omega

/-- C3: after a render with active-page argument `p`, at most one page link
carries the `'active'` class; whenever `p` lies in `[1, totalPages]` (so a
link numbered `p` is rendered) exactly one link is active, its label is `p`,
and this holds whether `p` arrives as a number or as the decimal string read
from a clicked link's text content. -/
theorem c3_active_marker (matchCount : Nat) (active : ActiveArg) :
    ((createPageLinks matchCount active).filter
      (fun L => L.anchorClass = "active")).length ≤ 1 ∧
    (∀ p : Nat, 1 ≤ p → p ≤ (matchCount + 9) / 10 →
      (active = .num p ∨ ∃ s, active = .str s ∧ jsStrToNum s = some (p : Int)) →
      (createPageLinks matchCount active).filter (fun L => L.anchorClass = "active")
        = [{ anchorClass := "active", label := toString p }]) := by
  have hsplit : (createPageLinks matchCount active).filter
      (fun L => L.anchorClass = "active")
      = ((List.range ((matchCount + 9) / 10)).filter
          (fun i => looseEqNat active (i + 1))).map
        (fun i => { anchorClass := if looseEqNat active (i + 1) then "active" else "",
                    label := toString (i + 1) }) := by
    rw [createPageLinks, List.filter_map]
    congr 1
    apply List.filter_congr
    intro i _
    by_cases h : looseEqNat active (i + 1) <;> simp [h]
  constructor
  · rw [hsplit, List.length_map]
    exact filter_length_le_one_of_unique (List.nodup_range _)
      (fun x _ y _ hx hy => by have := looseEqNat_inj active hx hy; omega)
  · intro p hp1 hp2 ha
    rw [hsplit]
    have heq : ∀ i : Nat, looseEqNat active (i + 1) = true ↔ i + 1 = p := by
      intro i
      rcases ha with h | ⟨s, hs, hparse⟩
      · subst h; simp [looseEqNat]; omega
      · subst hs
        simp only [looseEqNat, hparse]
        simp
        omega
    have hfilter : (List.range ((matchCount + 9) / 10)).filter
        (fun i => looseEqNat active (i + 1))
        = (List.range ((matchCount + 9) / 10)).filter (fun i => i == p - 1) := by
      apply List.filter_congr
      intro i _
      have hiff := heq i
      by_cases hi : i = p - 1
      · have h1 : i + 1 = p := by omega
        rw [hiff.mpr h1]
        simp [hi]
      · have h1 : ¬ i + 1 = p := by omega
        have hb : looseEqNat active (i + 1) = false := by
          rcases Bool.eq_false_or_eq_true (looseEqNat active (i + 1)) with h | h
          · exact absurd (hiff.mp h) h1
          · exact h
        rw [hb]
        symm
        simp [hi]
    rw [hfilter, range_filter_eq_single (by omega)]
    have hp' : p - 1 + 1 = p := by omega
    rw [List.map_singleton, hp']
    have : looseEqNat active p = true := by rw [← hp']; exact (heq (p - 1)).mpr hp'
    simp [this]

theorem c3_witness :
    (createPageLinks 25 (.str "3")).filter (fun L => L.anchorClass = "active")
      = [{ anchorClass := "active", label := toString 3 }] :=
  (c3_active_marker 25 (.str "3")).2 3 (by decide) (by decide)
    (Or.inr ⟨"3", rfl, by decide⟩)

/-! ## Selector aliasing and path resolution -/

theorem splitDot_cons_dot (l : List Char) : splitDot ('.' :: l) = [] :: splitDot l := by
  simp [splitDot]

theorem splitDot_cons_ne {c : Char} (h : c ≠ '.') (l : List Char) :
    splitDot (c :: l) = (c :: (splitDot l).headI) :: (splitDot l).tail := by
  simp [splitDot, h]

theorem splitDot_style_dot (rest : List Char) :
    splitDot ("style".toList ++ '.' :: rest) = "style".toList :: splitDot rest := by
  have h := splitDot_cons_dot rest
  simp only [String.toList]
  rw [show ("style".data ++ '.' :: rest)
        = 's' :: 't' :: 'y' :: 'l' :: 'e' :: '.' :: rest from rfl]
  rw [splitDot_cons_ne (by decide), splitDot_cons_ne (by decide),
    splitDot_cons_ne (by decide), splitDot_cons_ne (by decide),
    splitDot_cons_ne (by decide), splitDot_cons_dot]
  simp

theorem mem_prop_ne_empty (x : String) (s : String) (h : x ∈ Fquery.prop s) :
    x ≠ "" := by
  rw [Fquery.prop, List.mem_filter] at h
  simpa using h.2

/-- C7 fails as stated on a selector that both starts with `'.'` and
contains `'>'`: the child alias wins the fold in `selectorValidator`, so
`".foo>0"` resolves to `["foo", "children", "0"]` with no `"style"` prefix
key. -/
theorem c7_counterexample :
    (onProp ".foo>0").head? ≠ some "style" ∧
    onProp ".foo>0" = ["foo", "children", "0"] := by
  constructor
  · decide
  · decide

/-- C7 amended: `on` applies the alias rewrites before traversal; a selector
containing `'>'` resolves with every `'>'` replaced by `".children."` (the
child alias takes precedence even over a leading `'.'`); a selector with a
leading `'.'` and no `'>'` resolves to the style path, i.e. the key
`"style"` followed by the selector's own keys; and the resolved key sequence
never contains an empty key. -/
theorem c7_path_resolution (s : String) :
    (s.toList.contains '>' = true →
      onProp s = Fquery.prop (String.mk (replaceGt s.toList))) ∧
    (s.toList.headI = '.' → s.toList ≠ [] → s.toList.contains '>' = false →
      onProp s = "style" :: Fquery.prop s) ∧
    "" ∉ onProp s := by
  refine ⟨?_, ?_, ?_⟩
  · intro hgt
    have hchild : (childAlias s).test = true := hgt
    simp only [onProp, propWrapper, selectorValidator, List.foldl, hchild,
      if_true]
    rfl
  · intro hdot hne hgt
    have hchild : (childAlias s).test = false := hgt
    have hsty : (styleAlias s).test = true := by
      have hdot' : s.data.headI = '.' := hdot
      have hne' : ¬ s.data = [] := hne
      simp [styleAlias, String.toList, hdot', hne']
    have hres : onProp s = Fquery.prop ((styleAlias s).aliasTo) := by
      simp only [onProp, propWrapper, selectorValidator, List.foldl, hchild,
        hsty, Bool.false_eq_true, if_false, if_true]
    rw [hres]
    obtain ⟨rest, hrest⟩ : ∃ rest, s.toList = '.' :: rest := by
      cases hl : s.toList with
      | nil => exact absurd hl hne
      | cons c cs =>
        refine ⟨cs, ?_⟩
        rw [hl] at hdot
        simp at hdot
        rw [hdot]
    have halias : (styleAlias s).aliasTo = "style" ++ s := rfl
    have happ : ("style" ++ s).toList = "style".toList ++ ('.' :: rest) := by
      rw [← hrest]
      rfl
    rw [halias, Fquery.prop, Fquery.prop, happ, hrest, splitDot_style_dot,
      splitDot_cons_dot, List.map_cons, List.map_cons,
      List.filter_cons_of_pos (by decide), List.filter_cons_of_neg (by decide)]
    rfl
  · rw [onProp, propWrapper]
    split
    · exact fun h => absurd rfl (mem_prop_ne_empty "" _ h)
    · exact fun h => absurd rfl (mem_prop_ne_empty "" _ h)

/-! ## The filtering renderer `makePage` -/

theorem getValue_nil (v : JSValue) : getValue v [] = .ok v := rfl

theorem getValue_cons (v : JSValue) (k : String) (ks : List String) :
    getValue v (k :: ks)
      = match jsIndex v k with
        | .error e => .error e
        | .ok i => getValue i ks := by
  rw [getValue, List.foldlM_cons]
  cases jsIndex v k with
  | error e => rfl
  | ok i => rfl

theorem validator_isString (i : JSValue) : validator [isString] i = isString i := by
  simp [validator]


theorem mapME_congr {l : List α} {f g : α → Except Unit β}
    (h : ∀ x ∈ l, f x = g x) : mapME l f = mapME l g := by
  induction l with
  | nil => rfl
  | cons x xs ih =>
    simp only [mapME, h x (List.mem_cons_self x xs),
      ih (fun y hy => h y (List.mem_cons_of_mem x hy))]

theorem mapME_map (l : List α) (f : α → β) (g : β → Except Unit γ) :
    mapME (l.map f) g = mapME l (fun x => g (f x)) := by
  induction l with
  | nil => rfl
  | cons x xs ih => simp only [List.map_cons, mapME, ih]

theorem mapME_ok_length {l : List α} {f : α → Except Unit β} {ys : List β}
    (h : mapME l f = .ok ys) : ys.length = l.length := by
  induction l generalizing ys with
  | nil =>
    simp only [mapME] at h
    injection h with h
    subst h
    rfl
  | cons x xs ih =>
    simp only [mapME] at h
    cases hf : f x with
    | error e => rw [hf] at h; cases h
    | ok y =>
      rw [hf] at h
      cases hm : mapME xs f with
      | error e => rw [hm] at h; cases h
      | ok ys' =>
        rw [hm] at h
        simp only [Except.map] at h
        injection h with h
        subst h
        simp [ih hm]

theorem children_hide_showEl (e : Element) :
    (hide (showEl e)).children = e.children := by
  obtain ⟨⟨o, d⟩, sd, dd, ih, cn, i, v, cs⟩ := e
  cases sd with
  | none => rw [showEl_mk_none, hide_mk]; rfl
  | some s => rw [showEl_mk_some, hide_mk]; rfl

theorem getValue_elem_children (x : Element) (rest : List String) :
    getValue (.elem x) ("children" :: rest)
      = getValue (.childList x.children) rest := by
  rw [getValue_cons]
  rfl

theorem findItPred_singleton (k v : String) (el : JSValue) :
    findItPred [(k, v)] el
      = match getValue el (onProp k) with
        | .error _ => .error ()
        | .ok (.str s) => .ok (jsIncludes s v)
        | .ok _ => .error () := by
  simp only [findItPred, someME]
  cases hg : getValue el (onProp k) with
  | error e => rfl
  | ok i =>
    cases i with
    | undefined => rfl
    | bool b => rfl
    | str s => cases hb : jsIncludes s v <;> simp [hb]
    | elem e => rfl
    | styleObj st => rfl
    | childList cs => rfl

/-- `show` and `hide` only touch an element's style and stored display, so
the filter predicate of `makePage` computes the same answer on the element
states it actually visits (already shown and re-hidden) as on the original
elements. -/
theorem studentPred_hide_showEl (query : String) (e : Element) :
    studentPred query (hide (showEl e)) = studentPred query e := by
  have hkeys : onProp ">0>1.innerHTML"
      = "children" :: ["0", "children", "1", "innerHTML"] := by decide
  have hget : getValue (.elem (hide (showEl e))) (onProp ">0>1.innerHTML")
      = getValue (.elem e) (onProp ">0>1.innerHTML") := by
    rw [hkeys, getValue_elem_children, getValue_elem_children,
      children_hide_showEl]
  rw [studentPred, studentPred, findItPred_singleton, findItPred_singleton, hget]

theorem hide_showEl_state (e : Element) (h1 : e.storedDisplay = none)
    (h2 : e.defaultDisplay ≠ "none") :
    (hide (showEl e)).style.display = "none" ∧
    ∃ c, (hide (showEl e)).storedDisplay = some c ∧ c ≠ "none" := by
  obtain ⟨⟨o, d⟩, sd, dd, ih, cn, i, v, cs⟩ := e
  simp only [Element.storedDisplay] at h1
  subst h1
  simp only [Element.defaultDisplay] at h2
  rw [showEl_mk_none, hide_mk]
  refine ⟨rfl, dd, ?_, h2⟩
  simp [Element.storedDisplay]

theorem isVisible_showEl {e : Element} {c : String} (hst : e.storedDisplay = some c)
    (hc : c ≠ "none") : isVisible (showEl e) = true := by
  obtain ⟨⟨o, d⟩, sd, dd, ih, cn, i, v, cs⟩ := e
  simp only [Element.storedDisplay] at hst
  subst hst
  rw [showEl_mk_some]
  by_cases hce : c = ""
  · simp [isVisible, Element.style, hce]
  · simp [isVisible, Element.style, hce, hc]

theorem isVisible_of_display_none {e : Element} (h : e.style.display = "none") :
    isVisible e = false := by
  simp [isVisible, h]

/-- The element states `makePage`'s slice step produces, seen through
`isVisible`: matched students show exactly in the rank window, everything
else stays hidden. -/
theorem applySlice_map_isVisible (first last : Nat) :
    ∀ (flags : List Bool) (elems : List Element) (r : Nat),
      flags.length = elems.length →
      (∀ e ∈ elems, e.style.display = "none" ∧
        ∃ c, e.storedDisplay = some c ∧ c ≠ "none") →
      (applySlice first last r (flags.zip elems)).map isVisible
        = sliceFlags first last r flags := by
  intro flags
  induction flags with
  | nil => intro elems r _ _; rfl
  | cons b bs ih =>
    intro elems r hlen hhid
    cases elems with
    | nil => simp at hlen
    | cons e es =>
      obtain ⟨hdisp, c, hst, hc⟩ := hhid e (List.mem_cons_self e es)
      have hlen' : bs.length = es.length := by simpa using hlen
      have hhid' := fun x hx => hhid x (List.mem_cons_of_mem e hx)
      cases b with
      | true =>
        have ih2 := ih es (r + 1) hlen' hhid'
        simp only [List.zip] at ih2
        simp only [List.zip_cons_cons, applySlice, List.map_cons, sliceFlags,
          if_true]
        rw [ih2]
        by_cases hw : first ≤ r ∧ r < last
        · rw [if_pos hw, isVisible_showEl hst hc, decide_eq_true hw]
        · rw [if_neg hw, isVisible_of_display_none hdisp,
            decide_eq_false hw]
      | false =>
        have ih2 := ih es r hlen' hhid'
        simp only [List.zip] at ih2
        simp only [List.zip_cons_cons, applySlice, List.map_cons, sliceFlags,
          Bool.false_eq_true, if_false]
        rw [ih2, isVisible_of_display_none hdisp]

/-- Reading the visible positions off the slice pattern is the JavaScript
slice of the matched positions. -/
theorem boolFilterIdx_sliceFlags (first last : Nat) :
    ∀ (flags : List Bool) (i r : Nat),
      boolFilterIdx i (sliceFlags first last r flags)
        = ((boolFilterIdx i flags).drop (first - r)).take
            ((last - r) - (first - r)) := by
  intro flags
  induction flags with
  | nil => intro i r; simp [sliceFlags, boolFilterIdx]
  | cons b bs ih =>
    intro i r
    cases b with
    | false =>
      simp only [sliceFlags, boolFilterIdx, Bool.false_eq_true, if_false]
      exact ih (i + 1) r
    | true =>
      by_cases hw : first ≤ r ∧ r < last
      · simp only [sliceFlags, boolFilterIdx, decide_eq_true hw, if_true]
        rw [ih (i + 1) (r + 1)]
        have h1 : first - r = 0 := by omega
        have h2 : first - (r + 1) = 0 := by omega
        have h3 : last - r = (last - (r + 1)) + 1 := by omega
        rw [h1, h2, h3, List.drop_zero, List.drop_zero, Nat.sub_zero,
          Nat.sub_zero, List.take_succ_cons]
      · simp only [sliceFlags, boolFilterIdx, decide_eq_false hw,
          Bool.false_eq_true, if_false, if_true]
        rw [ih (i + 1) (r + 1)]
        by_cases hrf : r < first
        · have h1 : first - r = (first - (r + 1)) + 1 := by omega
          have h2 : (last - r) - (first - r)
              = (last - (r + 1)) - (first - (r + 1)) := by omega
          rw [h2, h1, List.drop_succ_cons]
        · have h1 : (last - r) - (first - r) = 0 := by omega
          have h2 : (last - (r + 1)) - (first - (r + 1)) = 0 := by omega
          simp [h1, h2]

/-- C1: for a valid page `p ≥ 1`, rendering `makePage(q, p)` over student
items in their initial DOM state (no `$$$display` expando, stylesheet
display not `"none"`) whose name paths resolve (so the filter computes
`flags`), the visible student positions afterwards are exactly the
JavaScript slice `[(p-1)*10, p*10)` of the matched positions, in document
order; every other student item is left hidden. -/
theorem c1_makePage_visible (students : List Element) (query : String)
    (page : Nat) (flags : List Bool)
    (hwf : ∀ e ∈ students, e.storedDisplay = none ∧ e.defaultDisplay ≠ "none")
    (hflags : mapME students (studentPred query) = .ok flags)
    (_hp : 1 ≤ page) :
    ∃ final, makePage students query page = .ok final ∧
      boolFilterIdx 0 (final.map isVisible)
        = jsSlice (boolFilterIdx 0 flags) ((page - 1) * 10) (page * 10) := by
  have hmap : mapME (students.map (fun e => hide (showEl e)))
      (studentPred query) = .ok flags := by
    rw [mapME_map, mapME_congr (fun e _ => studentPred_hide_showEl query e)]
    exact hflags
  refine ⟨applySlice ((page - 1) * 10) (page * 10) 0
      (flags.zip (students.map (fun e => hide (showEl e)))), ?_, ?_⟩
  · simp only [makePage, hmap]
  · have hlen : flags.length
        = (students.map (fun e => hide (showEl e))).length := by
      rw [mapME_ok_length hmap]
    have hhid : ∀ x ∈ students.map (fun e => hide (showEl e)),
        x.style.display = "none" ∧
        ∃ c, x.storedDisplay = some c ∧ c ≠ "none" := by
      intro x hx
      rw [List.mem_map] at hx
      obtain ⟨e, he, rfl⟩ := hx
      exact hide_showEl_state e (hwf e he).1 (hwf e he).2
    rw [applySlice_map_isVisible _ _ _ _ _ hlen hhid,
      boolFilterIdx_sliceFlags]
    rfl

theorem c1_witness :
    ∃ final, makePage [studentJo, studentNed] "o" 1 = .ok final ∧
      boolFilterIdx 0 (final.map isVisible)
        = jsSlice (boolFilterIdx 0 [true, false]) ((1 - 1) * 10) (1 * 10) :=
  c1_makePage_visible [studentJo, studentNed] "o" 1 [true, false]
    (by decide) rfl (by decide)

/-! ## Collection dispatch and the find/match predicates -/

/-- C8: `then` dispatches a named transform as a filter exactly when its
identifier is the single reserved letter `'m'` or `'f'`, and as a map for
every other non-empty identifier; `find` and `match` (identifiers `f` and
`m`) therefore filter the collection while `set` (identifier `s`) maps
it. -/
theorem c8_then_dispatch (elementArray : List JSValue)
    (propArray : List (String × String)) :
    thenFn elementArray (findFn propArray)
      = filterME elementArray
          (fun el => ((findFn propArray).run el).map jsTruthy) ∧
    thenFn elementArray (matchFn propArray)
      = filterME elementArray
          (fun el => ((matchFn propArray).run el).map jsTruthy) ∧
    thenFn elementArray (setFn propArray)
      = mapME elementArray (setFn propArray).run ∧
    (∀ a : NamedFn, (a.name = "m" ∨ a.name = "f") →
      thenFn elementArray a
        = filterME elementArray (fun el => (a.run el).map jsTruthy)) ∧
    (∀ a : NamedFn, a.name ≠ "" → a.name ≠ "m" → a.name ≠ "f" →
      thenFn elementArray a = mapME elementArray a.run) := by
  refine ⟨?_, ?_, ?_, ?_, ?_⟩
  · simp [thenFn, findFn]
  · simp [thenFn, matchFn]
  · simp [thenFn, setFn]
  · intro a ha
    rcases ha with h | h <;> simp [thenFn, h]
  · intro a h0 hm hf
    simp [thenFn, h0, hm, hf]

theorem c8_witness :
    thenFn [JSValue.undefined] idNamedFn = mapME [JSValue.undefined] idNamedFn.run :=
  (c8_then_dispatch [JSValue.undefined] []).2.2.2.2 idNamedFn (by decide) (by decide)
    (by decide)

theorem findItPred_ok_true_iff (propArray : List (String × String))
    (element : JSValue)
    (h : ∀ kv ∈ propArray, ∃ s, getValue element (onProp kv.1) = .ok (.str s)) :
    findItPred propArray element = .ok true ↔
      ∃ kv ∈ propArray, ∃ s, getValue element (onProp kv.1) = .ok (.str s) ∧
        jsIncludes s kv.2 = true := by
  induction propArray with
  | nil => simp [findItPred, someME]
  | cons kv rest ih =>
    obtain ⟨s, hs⟩ := h kv (List.mem_cons_self kv rest)
    have ih' := ih (fun kv' hkv' => h kv' (List.mem_cons_of_mem kv hkv'))
    simp only [findItPred] at ih' ⊢
    simp only [someME, hs]
    cases hinc : jsIncludes s kv.2 with
    | true =>
      constructor
      · intro _
        exact ⟨kv, List.mem_cons_self kv rest, s, hs, hinc⟩
      · intro _
        rfl
    | false =>
      rw [ih']
      constructor
      · rintro ⟨kv', hkv', s', hs', hinc'⟩
        exact ⟨kv', List.mem_cons_of_mem kv hkv', s', hs', hinc'⟩
      · rintro ⟨kv', hkv', s', hs', hinc'⟩
        rcases List.mem_cons.mp hkv' with rfl | hkv''
        · rw [hs] at hs'
          cases hs'
          rw [hinc] at hinc'
          cases hinc'
        · exact ⟨kv', hkv'', s', hs', hinc'⟩

theorem matchItPred_ok_true_iff (propArray : List (String × String))
    (element : JSValue)
    (h : ∀ kv ∈ propArray, ∃ s, getValue element (onProp kv.1) = .ok (.str s)) :
    matchItPred propArray element = .ok true ↔
      ∀ kv ∈ propArray, ∃ s, getValue element (onProp kv.1) = .ok (.str s) ∧
        s = kv.2 := by
  induction propArray with
  | nil => simp [matchItPred, everyME]
  | cons kv rest ih =>
    obtain ⟨s, hs⟩ := h kv (List.mem_cons_self kv rest)
    have ih' := ih (fun kv' hkv' => h kv' (List.mem_cons_of_mem kv hkv'))
    simp only [matchItPred] at ih' ⊢
    simp only [everyME, hs]
    cases hd : jsLooseEqStr (.str s) kv.2 with
    | true =>
      have heq : s = kv.2 := of_decide_eq_true hd
      rw [ih']
      constructor
      · intro hall kv' hkv'
        rcases List.mem_cons.mp hkv' with rfl | hkv''
        · exact ⟨s, hs, heq⟩
        · exact hall kv' hkv''
      · intro hall kv' hkv'
        exact hall kv' (List.mem_cons_of_mem kv hkv')
    | false =>
      have hne : ¬ s = kv.2 := of_decide_eq_false hd
      constructor
      · intro hfalse
        cases hfalse
      · intro hall
        obtain ⟨s', hs', heq'⟩ := hall kv (List.mem_cons_self kv rest)
        rw [hs] at hs'
        cases hs'
        exact absurd heq' hne

/-- C9: with more than one listed property, `find`'s predicate (`findIt`)
accepts an element as soon as one listed property's resolved value contains
the paired value as a substring (existential), while `match`'s predicate
(`matchIt`) accepts only when every listed property's resolved value equals
the paired value (universal). -/
theorem c9_find_vs_match (propArray : List (String × String)) (element : JSValue)
    (h : ∀ kv ∈ propArray, ∃ s, getValue element (onProp kv.1) = .ok (.str s)) :
    (findItPred propArray element = .ok true ↔
      ∃ kv ∈ propArray, ∃ s, getValue element (onProp kv.1) = .ok (.str s) ∧
        jsIncludes s kv.2 = true) ∧
    (matchItPred propArray element = .ok true ↔
      ∀ kv ∈ propArray, ∃ s, getValue element (onProp kv.1) = .ok (.str s) ∧
        s = kv.2) :=
  ⟨findItPred_ok_true_iff propArray element h,
   matchItPred_ok_true_iff propArray element h⟩

theorem c9_witness :
    findItPred [("innerHTML", ""), ("className", "student-item")]
      (.elem studentJo) = .ok true ∧
    matchItPred [("innerHTML", ""), ("className", "student-item")]
      (.elem studentJo) = .ok true := by
  have h : ∀ kv ∈ [("innerHTML", ""), ("className", "student-item")],
      ∃ s, getValue (.elem studentJo) (onProp kv.1) = .ok (.str s) := by
    intro kv hkv
    rcases List.mem_cons.mp hkv with rfl | hkv'
    · exact ⟨"", rfl⟩
    · rcases List.mem_cons.mp hkv' with rfl | hkv''
      · exact ⟨"student-item", rfl⟩
      · cases hkv''
  have hc := c9_find_vs_match _ _ h
  refine ⟨hc.1.mpr ?_, hc.2.mpr ?_⟩
  · exact ⟨("innerHTML", ""), List.mem_cons_self _ _, "", rfl, rfl⟩
  · intro kv hkv
    rcases List.mem_cons.mp hkv with rfl | hkv'
    · exact ⟨"", rfl, rfl⟩
    · rcases List.mem_cons.mp hkv' with rfl | hkv''
      · exact ⟨"student-item", rfl, rfl⟩
      · cases hkv''

/-! ## `setValue` / `getValue` on invalid paths -/

theorem Element.withStyle_style (e : Element) : e.withStyle e.style = e := by
  cases e
  rfl

theorem Element.withChildren_children (e : Element) :
    e.withChildren e.children = e := by
  cases e
  rfl

theorem List.set_of_getElem? {cs : List α} {n : Nat} {e : α}
    (h : cs[n]? = some e) : cs.set n e = cs := by
  induction cs generalizing n with
  | nil => simp at h
  | cons a t ih =>
    cases n with
    | zero => simp at h; simp [h]
    | succ m =>
      simp only [List.getElem?_cons_succ] at h
      simp [List.set_cons_succ, ih h]

/-- Reattaching the very child that indexing produced leaves the object
unchanged. -/
theorem jsPutObj_of_jsIndex {v : JSValue} {k : String} {i : JSValue}
    (h : jsIndex v k = .ok i) : jsPutObj v k i = v := by
  cases v with
  | undefined => simp [jsIndex] at h
  | bool b => cases i <;> rfl
  | str s => cases i <;> rfl
  | elem e =>
    simp only [jsIndex] at h
    split_ifs at h with h1 h2 h3 h4 h5 h6 h7
    · cases h
      simp [jsPutObj, h1, Element.withStyle_style]
    · cases h
      simp [jsPutObj, h1, h2, Element.withChildren_children]
    · cases h; rfl
    · cases h; rfl
    · cases h; rfl
    · cases h; rfl
    · cases e with
      | mk st sd dd ih cn ia vv cs =>
        cases sd <;> (cases h; rfl)
    · cases h; rfl
  | styleObj st =>
    simp only [jsIndex] at h
    split_ifs at h with h1 h2
    · cases h; rfl
    · cases h; rfl
    · cases h; rfl
  | childList cs =>
    simp only [jsIndex] at h
    split at h
    · rename_i n hn
      split at h
      · rename_i e' he'
        cases h
        simp only [String.toList] at hn
        simp [jsPutObj, hn, List.set_of_getElem? he']
      · cases h; rfl
    · cases h; rfl

/-- C6 fails as stated for `getValue`: reading the two-step non-existent
path `["nosuch", "anything"]` off an element is not a silent no-op — the
first step yields `undefined` and indexing `undefined` raises a
`TypeError`, for the read and for the guarded write alike. -/
theorem c6_counterexample :
    getValue (.elem elemPlain) ["nosuch", "anything"] = .error () ∧
    (setValueGo "x" (.elem elemPlain) ["nosuch", "anything"]).2 = .error () :=
  ⟨rfl, rfl⟩

/-- C6 amended: `setValue` writes at a path step only when that step's
current value is a string and otherwise leaves the step unchanged — a walk
that meets no string-valued step leaves the target untouched; and a
single-key non-existent path is silently ignored by both `getValue`
(returning `undefined`) and `setValue`; but a longer path through a
non-existent intermediate raises a `TypeError` instead of being silently
ignored. -/
theorem c6_set_get_paths (value : String) :
    (∀ v path, noStringStep v path = true → (setValueGo value v path).1 = v) ∧
    (∀ v k, jsIndex v k = .ok .undefined →
      getValue v [k] = .ok .undefined ∧
      (setValueGo value v [k]).1 = v ∧ (setValueGo value v [k]).2 = .ok .undefined) ∧
    (∀ v k k2 ks, jsIndex v k = .ok .undefined →
      getValue v (k :: k2 :: ks) = .error () ∧
      (setValueGo value v (k :: k2 :: ks)).2 = .error ()) := by
  refine ⟨?_, ?_, ?_⟩
  · intro v path
    induction path generalizing v with
    | nil => intro _; rfl
    | cons k ks ih =>
      intro h
      cases hj : jsIndex v k with
      | error e => simp [setValueGo, hj]
      | ok i =>
        simp only [noStringStep, hj] at h
        cases i with
        | str s => simp at h
        | undefined =>
          simp only [setValueGo, hj, validator_isString, isString,
            Bool.false_eq_true, if_false]
          rw [ih _ h]
          exact jsPutObj_of_jsIndex hj
        | bool b =>
          simp only [setValueGo, hj, validator_isString, isString,
            Bool.false_eq_true, if_false]
          rw [ih _ h]
          exact jsPutObj_of_jsIndex hj
        | elem e =>
          simp only [setValueGo, hj, validator_isString, isString,
            Bool.false_eq_true, if_false]
          rw [ih _ h]
          exact jsPutObj_of_jsIndex hj
        | styleObj st =>
          simp only [setValueGo, hj, validator_isString, isString,
            Bool.false_eq_true, if_false]
          rw [ih _ h]
          exact jsPutObj_of_jsIndex hj
        | childList cs =>
          simp only [setValueGo, hj, validator_isString, isString,
            Bool.false_eq_true, if_false]
          rw [ih _ h]
          exact jsPutObj_of_jsIndex hj
  · intro v k hj
    refine ⟨?_, ?_, ?_⟩
    · rw [getValue_cons, hj]
      rfl
    · simp only [setValueGo, hj, validator_isString, isString,
        Bool.false_eq_true, if_false]
      exact jsPutObj_of_jsIndex hj
    · simp only [setValueGo, hj, validator_isString, isString,
        Bool.false_eq_true, if_false]
  · intro v k k2 ks hj
    constructor
    · rw [getValue_cons, hj]
      rfl
    · simp only [setValueGo, hj, validator_isString, isString,
        Bool.false_eq_true, if_false]
      rfl

theorem c6_witness :
    getValue (.elem elemPlain) ["nosuch"] = .ok .undefined ∧
    (setValueGo "x" (.elem elemPlain) ["nosuch"]).1 = .elem elemPlain ∧
    (setValueGo "x" (.elem elemPlain) ["nosuch"]).2 = .ok .undefined :=
  (c6_set_get_paths "x").2.1 (.elem elemPlain) "nosuch" rfl

theorem c7_witness :
    onProp ">0>1.innerHTML"
      = Fquery.prop (String.mk (replaceGt ">0>1.innerHTML".toList)) ∧
    onProp ".backgroundColor" = "style" :: Fquery.prop ".backgroundColor" :=
  ⟨(c7_path_resolution ">0>1.innerHTML").1 (by decide),
   (c7_path_resolution ".backgroundColor").2.1 (by decide) (by decide) (by decide)⟩
